import Mathlib

/-!
Shallow embedding of the allocator family in `allocators.h` and of the
owned-region bump wrapper in `simple_memory_allocator.c`.

Modelling conventions:
* A backing region is abstracted to its capacity; pointers returned to the
  caller are byte offsets from the region base (`base` itself is abstracted
  away, so `base + off` in C corresponds to the offset `off` here).
* `size_t` arithmetic is modelled with `Nat`.  Where the C code can wrap
  modulo `2 ^ w` we provide a separate `w`-bit model with the reduction
  `% 2 ^ w` written out explicitly (`bump_alloc_w`, `stack_alloc_w`).
* Intrusive data stored inside the region (the pool's free-slot links and
  the free-list block headers) is modelled as explicit lists of offsets and
  of `(addr, size)` blocks; under the caller contract the caller never
  writes into free slots or headers, so the list view is faithful.
-/

namespace MemCheck

/-- Alignment helper: `(n + 7) & ~7` for non-wrapping `size_t`, i.e. round
`n` up to the next multiple of 8. -/
def align8 (n : Nat) : Nat :=
  (n + 7) / 8 * 8

/-! ### Bump allocator (`allocators.h`, `BumpAllocator`) -/

/-- `BumpAllocator`: the `memory` base pointer is abstracted away; `size`
and `used` are the two `size_t` fields. -/
structure BumpAllocator where
  size : Nat
  used : Nat
deriving DecidableEq, Repr

/-- `bump_init(a, memory, size)`. -/
def bump_init (size : Nat) : BumpAllocator :=
  { size := size, used := 0 }

/-- `bump_alloc(a, size)`: returns `none` for `NULL`, otherwise the new
state together with the returned offset `a->used` (C: `a->memory + a->used`). -/
def bump_alloc (a : BumpAllocator) (n : Nat) : Option (BumpAllocator × Nat) :=
  let aligned := align8 n
  if a.size < a.used + aligned then
    none
  else
    some ({ a with used := a.used + aligned }, a.used)

/-- `bump_reset(a)`. -/
def bump_reset (a : BumpAllocator) : BumpAllocator :=
  { a with used := 0 }

/-- `bump_used(a)`. -/
def bump_used (a : BumpAllocator) : Nat := a.used

/-- `bump_remaining(a)`. -/
def bump_remaining (a : BumpAllocator) : Nat := a.size - a.used

/-- Run a sequence of `bump_alloc` calls, collecting each result
(`none` for a failed call, `some off` for a returned offset). -/
def runBump : BumpAllocator → List Nat → BumpAllocator × List (Option Nat)
  | a, [] => (a, [])
  | a, n :: ns =>
    match bump_alloc a n with
    | none =>
      let r := runBump a ns
      (r.1, none :: r.2)
    | some (a2, p) =>
      let r := runBump a2 ns
      (r.1, some p :: r.2)

/-! ### `w`-bit model of `bump_alloc` / `stack_alloc`

`size_t` is a `w`-bit unsigned type: every addition is reduced `% 2 ^ w`.
`x & ~((size_t)7)` clears the low three bits of `x`, i.e. equals `x - x % 8`. -/

/-- `(size + 7) & ~((size_t)7)` in `w`-bit `size_t` arithmetic. -/
def align8w (w n : Nat) : Nat :=
  let t := (n + 7) % 2 ^ w
  t - t % 8

/-- `bump_alloc` with `w`-bit `size_t` arithmetic (the state components of a
well-formed allocator are below `2 ^ w`, so only the two additions reduce). -/
def bump_alloc_w (w : Nat) (a : BumpAllocator) (n : Nat) :
    Option (BumpAllocator × Nat) :=
  let aligned := align8w w n
  if a.size < (a.used + aligned) % 2 ^ w then
    none
  else
    some ({ a with used := (a.used + aligned) % 2 ^ w }, a.used)

/-! ### Stack allocator (`allocators.h`, `StackAllocator`) -/

/-- `StackAllocator`: `size` and `top`, base pointer abstracted away. -/
structure StackAllocator where
  size : Nat
  top : Nat
deriving DecidableEq, Repr

/-- `stack_init(s, memory, size)`. -/
def stack_init (size : Nat) : StackAllocator :=
  { size := size, top := 0 }

/-- `stack_alloc(s, size)`: same algorithm as `bump_alloc`. -/
def stack_alloc (s : StackAllocator) (n : Nat) : Option (StackAllocator × Nat) :=
  let aligned := align8 n
  if s.size < s.top + aligned then
    none
  else
    some ({ s with top := s.top + aligned }, s.top)

/-- `stack_alloc` with `w`-bit `size_t` arithmetic. -/
def stack_alloc_w (w : Nat) (s : StackAllocator) (n : Nat) :
    Option (StackAllocator × Nat) :=
  let aligned := align8w w n
  if s.size < (s.top + aligned) % 2 ^ w then
    none
  else
    some ({ s with top := (s.top + aligned) % 2 ^ w }, s.top)

/-- `stack_reset(s)`. -/
def stack_reset (s : StackAllocator) : StackAllocator :=
  { s with top := 0 }

/-- Run a sequence of `stack_alloc` calls, collecting each result. -/
def runStack : StackAllocator → List Nat → StackAllocator × List (Option Nat)
  | s, [] => (s, [])
  | s, n :: ns =>
    match stack_alloc s n with
    | none =>
      let r := runStack s ns
      (r.1, none :: r.2)
    | some (s2, p) =>
      let r := runStack s2 ns
      (r.1, some p :: r.2)

/-! ### Pool allocator (`allocators.h`, `PoolAllocator`) -/

/-- `sizeof(PoolFreeBlock)`: one pointer, 8 bytes on the 64-bit target. -/
def POOL_LINK_SIZE : Nat := 8

/-- `PoolAllocator`: the intrusive singly-linked free list is modelled as
the list of free slot offsets, head first. -/
structure PoolAllocator where
  block_size : Nat
  block_count : Nat
  used_count : Nat
  free_list : List Nat
deriving DecidableEq, Repr

/-- `pool_init(p, memory, block_size, block_count)`: raises `block_size` to
at least `sizeof(PoolFreeBlock)` and pushes slot `i * block_size` onto the
free-list head for `i = 0, …, block_count - 1` in order. -/
def pool_init (block_size block_count : Nat) : PoolAllocator :=
  let bse := if block_size < POOL_LINK_SIZE then POOL_LINK_SIZE else block_size
  { block_size := bse
    block_count := block_count
    used_count := 0
    free_list := (List.range block_count).foldl (fun l i => i * bse :: l) [] }

/-- `pool_alloc(p)`: pops the free-list head. -/
def pool_alloc (p : PoolAllocator) : Option (PoolAllocator × Nat) :=
  match p.free_list with
  | [] => none
  | b :: rest =>
    some ({ p with free_list := rest, used_count := p.used_count + 1 }, b)

/-- `pool_free(p, ptr)` for a non-null `ptr` (null is a no-op in C): pushes
the slot back on the free-list head.  The C `used_count--` wraps if
`used_count = 0`; under the caller contract a free always follows a matching
allocation, where `Nat` truncated subtraction agrees. -/
def pool_free (p : PoolAllocator) (ptr : Nat) : PoolAllocator :=
  { p with free_list := ptr :: p.free_list, used_count := p.used_count - 1 }

/-- `pool_used(p)`. -/
def pool_used (p : PoolAllocator) : Nat := p.used_count

/-- `pool_available(p)`. -/
def pool_available (p : PoolAllocator) : Nat := p.block_count - p.used_count

/-- Run `k` successive `pool_alloc` calls, collecting each result. -/
def runPool : PoolAllocator → Nat → PoolAllocator × List (Option Nat)
  | p, 0 => (p, [])
  | p, k + 1 =>
    match pool_alloc p with
    | none =>
      let r := runPool p k
      (r.1, none :: r.2)
    | some (p2, b) =>
      let r := runPool p2 k
      (r.1, some b :: r.2)

/-! ### Free-list allocator (`allocators.h`, `FreeListAllocator`) -/

/-- `FREELIST_HEADER_SIZE = sizeof(size_t)`: 8 bytes on the 64-bit target. -/
def FREELIST_HEADER_SIZE : Nat := 8

/-- `FREELIST_MIN_BLOCK = sizeof(FreeListBlock)`: a `size_t` plus a pointer,
16 bytes on the 64-bit target. -/
def FREELIST_MIN_BLOCK : Nat := 16

/-- A block of the region: start offset and size in bytes.  For a free
block both fields are stored in the in-region `FreeListBlock` header; for a
live block `bsize` is the size stored in the hidden header at `addr`, and
the pointer handed to the caller is `addr + FREELIST_HEADER_SIZE`. -/
structure Block where
  addr : Nat
  bsize : Nat
deriving DecidableEq, Repr

/-- `FreeListAllocator`: the address-ordered intrusive free list is
modelled as the list of its blocks in list order. -/
structure FreeListAllocator where
  size : Nat
  freeList : List Block
  used : Nat
deriving DecidableEq, Repr

/-- `freelist_init(a, memory, size)`: one free block spanning the region. -/
def freelist_init (size : Nat) : FreeListAllocator :=
  { size := size, freeList := [⟨0, size⟩], used := 0 }

/-- The `required` size computed by `freelist_alloc`, in exact (unbounded)
arithmetic: `align8(size + FREELIST_HEADER_SIZE)` raised to at least
`FREELIST_MIN_BLOCK`.  The C computation is in `size_t` and wraps modulo
`2 ^ w`; `freelist_required_w` below models that wrap, and
`freelist_required_w_eq` shows the two agree whenever
`n + FREELIST_HEADER_SIZE + 7` does not overflow. -/
def freelist_required (n : Nat) : Nat :=
  let r := align8 (n + FREELIST_HEADER_SIZE)
  if r < FREELIST_MIN_BLOCK then FREELIST_MIN_BLOCK else r

/-- The `required` computation of `freelist_alloc` in `w`-bit `size_t`
arithmetic, faithful to the C code: `required = size +
FREELIST_HEADER_SIZE` (wraps), `required = (required + 7) & ~7` (wraps;
clearing the low three bits of `x` is `x - x % 8`), then raised to
`FREELIST_MIN_BLOCK`. -/
def freelist_required_w (w n : Nat) : Nat :=
  let t := (n + FREELIST_HEADER_SIZE) % 2 ^ w
  let r := (t + 7) % 2 ^ w - ((t + 7) % 2 ^ w) % 8
  if r < FREELIST_MIN_BLOCK then FREELIST_MIN_BLOCK else r

/-- The first-fit loop of `freelist_alloc`: scan for the first block with
`required ≤ size`; split it if it can hold `required` plus another
minimum-sized block, otherwise take it whole.  Returns the updated free
list together with the allocated block (whose `bsize` is the final size
written to the header, i.e. the amount added to `used`). -/
def flSearch (required : Nat) : List Block → Option (List Block × Block)
  | [] => none
  | b :: rest =>
    if required ≤ b.bsize then
      if required + FREELIST_MIN_BLOCK ≤ b.bsize then
        some (⟨b.addr + required, b.bsize - required⟩ :: rest,
              ⟨b.addr, required⟩)
      else
        some (rest, b)
    else
      match flSearch required rest with
      | none => none
      | some (l, blk) => some (b :: l, blk)

/-- `freelist_alloc(a, size)` in exact (unbounded) arithmetic: `none` for
`NULL`; on success the new state and the allocated block.  The C return
value is `blk.addr + FREELIST_HEADER_SIZE` for the returned block `blk`.
`freelist_alloc_w` below is the `w`-bit `size_t` model; the two coincide
whenever no intermediate `size_t` computation wraps, which holds for every
request a region of size below `2 ^ w - 31` can ever satisfy. -/
def freelist_alloc (a : FreeListAllocator) (n : Nat) :
    Option (FreeListAllocator × Block) :=
  if n = 0 then none
  else
    match flSearch (freelist_required n) a.freeList with
    | none => none
    | some (l, blk) =>
      some ({ a with freeList := l, used := a.used + blk.bsize }, blk)

/-- The first-fit loop with the split threshold `required +
FREELIST_MIN_BLOCK` computed in `w`-bit `size_t` arithmetic (the C
comparison `block->size >= required + FREELIST_MIN_BLOCK` wraps). -/
def flSearch_w (w required : Nat) : List Block → Option (List Block × Block)
  | [] => none
  | b :: rest =>
    if required ≤ b.bsize then
      if (required + FREELIST_MIN_BLOCK) % 2 ^ w ≤ b.bsize then
        some (⟨b.addr + required, b.bsize - required⟩ :: rest,
              ⟨b.addr, required⟩)
      else
        some (rest, b)
    else
      match flSearch_w w required rest with
      | none => none
      | some (l, blk) => some (b :: l, blk)

/-- `freelist_alloc` with `w`-bit `size_t` arithmetic: the `required`
computation, the split threshold and the `used` accounting all reduce
modulo `2 ^ w` as in the C code. -/
def freelist_alloc_w (w : Nat) (a : FreeListAllocator) (n : Nat) :
    Option (FreeListAllocator × Block) :=
  if n = 0 then none
  else
    match flSearch_w w (freelist_required_w w n) a.freeList with
    | none => none
    | some (l, blk) =>
      some ({ a with freeList := l,
                     used := (a.used + blk.bsize) % 2 ^ w }, blk)

/-- Pointer returned to the caller for an allocated block:
`(uint8_t *)block + FREELIST_HEADER_SIZE`. -/
def freelist_ptr (b : Block) : Nat := b.addr + FREELIST_HEADER_SIZE

/-- Sorted insertion of `freelist_free`: walk while `curr < block` (pointer
comparison, i.e. start offsets) and link the block in. -/
def insertSorted (b : Block) : List Block → List Block
  | [] => [b]
  | c :: rest =>
    if c.addr < b.addr then c :: insertSorted b rest
    else b :: c :: rest

/-- Forward coalescing step of `freelist_free`: at the (first) list node
whose start offset is `a`, merge it with its successor when the two are
address-adjacent. -/
def coalesceNext (a : Nat) : List Block → List Block
  | [] => []
  | [b] => [b]
  | b :: c :: rest =>
    if b.addr = a then
      if b.addr + b.bsize = c.addr then ⟨b.addr, b.bsize + c.bsize⟩ :: rest
      else b :: c :: rest
    else b :: coalesceNext a (c :: rest)

/-- Backward coalescing step of `freelist_free`: find the list node whose
start offset is `a` together with its predecessor (the C code scans from
the head; the head itself has no predecessor) and merge the two when they
are address-adjacent. -/
def coalescePrev (a : Nat) : List Block → List Block
  | [] => []
  | [b] => [b]
  | p :: b :: rest =>
    if b.addr = a then
      if p.addr + p.bsize = b.addr then ⟨p.addr, p.bsize + b.bsize⟩ :: rest
      else p :: b :: rest
    else p :: coalescePrev a (b :: rest)

/-- `freelist_free(a, ptr)` for a non-null `ptr` (null is a no-op in C).
`blk` is the freed block: its start is `ptr - FREELIST_HEADER_SIZE` and its
size is read from the stored header (so under the caller contract `blk` is
the block returned by the matching `freelist_alloc`).  The C `a->used -=
block->size` wraps if `used < block->size`; under the caller contract
`used` counts the freed block, where `Nat` truncated subtraction agrees. -/
def freelist_free (a : FreeListAllocator) (blk : Block) : FreeListAllocator :=
  { a with
    used := a.used - blk.bsize
    freeList :=
      coalescePrev blk.addr (coalesceNext blk.addr
        (insertSorted blk a.freeList)) }

/-- `freelist_used(a)`. -/
def freelist_used (a : FreeListAllocator) : Nat := a.used

/-! ### Owned-region bump wrapper (`simple_memory_allocator.c`) -/

/-- `SimpleMemoryAllocator`: `hasMemory` models whether the `memory`
pointer is non-null (the backing pool address itself is abstracted away). -/
structure SimpleMemoryAllocator where
  hasMemory : Bool
  size : Nat
  used : Nat
deriving DecidableEq, Repr

/-- `simple_memory_allocator_init(a)`. -/
def simple_memory_allocator_init : SimpleMemoryAllocator :=
  { hasMemory := false, size := 0, used := 0 }

/-- `simple_memory_allocator_create(a, pool_size)` for a non-null
allocator argument, with a succeeding `malloc`: `none` models the `-1`
failure return for a zero pool size. -/
def simple_memory_allocator_create (pool_size : Nat) :
    Option SimpleMemoryAllocator :=
  if pool_size = 0 then none
  else some { hasMemory := true, size := pool_size, used := 0 }

/-- `simple_memory_allocator_alloc(a, size)` for a non-null allocator
argument: rejects a null pool or a zero size, then runs the bump logic. -/
def simple_memory_allocator_alloc (a : SimpleMemoryAllocator) (n : Nat) :
    Option (SimpleMemoryAllocator × Nat) :=
  if a.hasMemory = false ∨ n = 0 then none
  else
    let aligned := align8 n
    if a.size < a.used + aligned then none
    else some ({ a with used := a.used + aligned }, a.used)

/-- `simple_memory_allocator_reset(a)` for a non-null allocator argument. -/
def simple_memory_allocator_reset (a : SimpleMemoryAllocator) :
    SimpleMemoryAllocator :=
  { a with used := 0 }

/-- `simple_memory_allocator_destroy(a)` for a non-null allocator argument:
returns the zeroed state together with a flag recording whether the call
released a backing region (`free(p)` releases exactly when `p` is
non-null; `free(NULL)` is a no-op). -/
def simple_memory_allocator_destroy (a : SimpleMemoryAllocator) :
    SimpleMemoryAllocator × Bool :=
  ({ hasMemory := false, size := 0, used := 0 }, a.hasMemory)

end MemCheck

namespace MemCheck

/-! ### Basic facts about `align8` -/

theorem align8_mod (n : Nat) : align8 n % 8 = 0 := by
  simp [align8, Nat.mul_mod_left]

theorem le_align8 (n : Nat) : n ≤ align8 n := by
  simp only [align8]
  omega

theorem align8_lt (n : Nat) : align8 n < n + 8 := by
  simp only [align8]
  omega

theorem align8_pos (n : Nat) (h : 0 < n) : 8 ≤ align8 n := by
  simp only [align8]
  omega

end MemCheck

namespace MemCheck

/-- C3: on a 1024-byte free-list region, allocating A(100), B(200), C(50)
yields blocks A = [0,112), B = [112,320), C = [320,384); freeing B drops
`used` from 384 to 176, exactly B's recorded block size 208; a subsequent
D(150) is carved from B's former gap (D = [112,272) ⊆ [112,320)); freeing
A, C, D in each of the six possible orders returns the allocator to
`used = 0` with a single free block spanning the whole region. -/
theorem c3_freelist_coalescing_roundtrip :
    freelist_alloc (freelist_init 1024) 100
      = some (⟨1024, [⟨112, 912⟩], 112⟩, ⟨0, 112⟩)
    ∧ freelist_alloc ⟨1024, [⟨112, 912⟩], 112⟩ 200
      = some (⟨1024, [⟨320, 704⟩], 320⟩, ⟨112, 208⟩)
    ∧ freelist_alloc ⟨1024, [⟨320, 704⟩], 320⟩ 50
      = some (⟨1024, [⟨384, 640⟩], 384⟩, ⟨320, 64⟩)
    ∧ freelist_free ⟨1024, [⟨384, 640⟩], 384⟩ ⟨112, 208⟩
      = ⟨1024, [⟨112, 208⟩, ⟨384, 640⟩], 176⟩
    ∧ freelist_used ⟨1024, [⟨384, 640⟩], 384⟩
        - freelist_used ⟨1024, [⟨112, 208⟩, ⟨384, 640⟩], 176⟩ = 208
    ∧ freelist_alloc ⟨1024, [⟨112, 208⟩, ⟨384, 640⟩], 176⟩ 150
      = some (⟨1024, [⟨272, 48⟩, ⟨384, 640⟩], 336⟩, ⟨112, 160⟩)
    ∧ (112 : Nat) + 160 ≤ 112 + 208
    ∧ freelist_free (freelist_free (freelist_free
        ⟨1024, [⟨272, 48⟩, ⟨384, 640⟩], 336⟩ ⟨0, 112⟩) ⟨320, 64⟩) ⟨112, 160⟩
      = ⟨1024, [⟨0, 1024⟩], 0⟩
    ∧ freelist_free (freelist_free (freelist_free
        ⟨1024, [⟨272, 48⟩, ⟨384, 640⟩], 336⟩ ⟨0, 112⟩) ⟨112, 160⟩) ⟨320, 64⟩
      = ⟨1024, [⟨0, 1024⟩], 0⟩
    ∧ freelist_free (freelist_free (freelist_free
        ⟨1024, [⟨272, 48⟩, ⟨384, 640⟩], 336⟩ ⟨320, 64⟩) ⟨0, 112⟩) ⟨112, 160⟩
      = ⟨1024, [⟨0, 1024⟩], 0⟩
    ∧ freelist_free (freelist_free (freelist_free
        ⟨1024, [⟨272, 48⟩, ⟨384, 640⟩], 336⟩ ⟨320, 64⟩) ⟨112, 160⟩) ⟨0, 112⟩
      = ⟨1024, [⟨0, 1024⟩], 0⟩
    ∧ freelist_free (freelist_free (freelist_free
        ⟨1024, [⟨272, 48⟩, ⟨384, 640⟩], 336⟩ ⟨112, 160⟩) ⟨0, 112⟩) ⟨320, 64⟩
      = ⟨1024, [⟨0, 1024⟩], 0⟩
    ∧ freelist_free (freelist_free (freelist_free
        ⟨1024, [⟨272, 48⟩, ⟨384, 640⟩], 336⟩ ⟨112, 160⟩) ⟨320, 64⟩) ⟨0, 112⟩
      = ⟨1024, [⟨0, 1024⟩], 0⟩ := by
  decide

/-- C5, counterexample: `bump_alloc(a, 0)` does not return a failure
indicator; on a fresh 1024-byte bump allocator it succeeds, returning the
current cursor (offset 0) and leaving the state unchanged. -/
theorem c5_counterexample_zero_alloc_succeeds :
    bump_alloc (bump_init 1024) 0 ≠ none
    ∧ bump_alloc (bump_init 1024) 0 = some (bump_init 1024, 0) := by
  decide

/-- C5, amended: `bump_alloc(a, 0)` succeeds whenever `used ≤ size`,
returning the current cursor address and leaving the state unchanged,
whereas the owned-region wrapper `simple_memory_allocator_alloc` rejects a
zero-size request with `NULL` (and no mutation). -/
theorem c5_zero_size_request (a : BumpAllocator) (s : SimpleMemoryAllocator)
    (h : a.used ≤ a.size) :
    bump_alloc a 0 = some (a, a.used)
    ∧ simple_memory_allocator_alloc s 0 = none := by
  refine ⟨?_, by simp [simple_memory_allocator_alloc]⟩
  have h0 : align8 0 = 0 := by norm_num [align8]
  simp only [bump_alloc, h0, Nat.add_zero]
  rw [if_neg (by omega)]

/-- C5 witness: the amended statement at a fresh 1024-byte bump allocator
and a fresh wrapper allocator. -/
theorem c5_zero_size_request_witness :
    bump_alloc (bump_init 1024) 0 = some (bump_init 1024, 0)
    ∧ simple_memory_allocator_alloc simple_memory_allocator_init 0 = none :=
  c5_zero_size_request (bump_init 1024) simple_memory_allocator_init
    (by decide)

set_option maxRecDepth 10000 in
/-- C6: with 64-bit `size_t`, neither `bump_alloc` nor `stack_alloc` checks
for overflow: on a fresh 1024-byte region a request of `2^64 - 1` bytes
wraps (`size + 7` overflows, the mask yields `aligned = 0`) and the
allocation falsely succeeds, although in exact arithmetic
`used + align8(n) = 2^64 > 1024`. -/
theorem c6_overflow_falsely_succeeds :
    bump_alloc_w 64 (bump_init 1024) (2 ^ 64 - 1)
      = some (bump_init 1024, 0)
    ∧ stack_alloc_w 64 (stack_init 1024) (2 ^ 64 - 1)
      = some (stack_init 1024, 0)
    ∧ 1024 < 0 + align8 (2 ^ 64 - 1) := by
  refine ⟨by decide, by decide, by norm_num [align8]⟩

/-- C8, counterexample: for a pool with `block_count = 5` (block size 16),
after 3 successful `pool_alloc` calls (returning slots 64, 48, 32) and a
`pool_free` of the 2nd returned pointer (48), `pool_available` is 3, not 4. -/
theorem c8_counterexample_available_is_three :
    runPool (pool_init 16 5) 3
      = (⟨16, 5, 3, [16, 0]⟩, [some 64, some 48, some 32])
    ∧ pool_free ⟨16, 5, 3, [16, 0]⟩ 48 = ⟨16, 5, 2, [48, 16, 0]⟩
    ∧ pool_available ⟨16, 5, 2, [48, 16, 0]⟩ ≠ 4 := by
  decide

/-- C8, amended: for a pool with `block_count = 5` (block size 16), after 3
successful `pool_alloc` calls and a `pool_free` of the 2nd returned
pointer, `pool_available() = 3`; thereafter `pool_alloc` succeeds exactly 3
more times and fails (returns null) on the 4th attempt, at which point
`pool_available() = 0`. -/
theorem c8_pool_exhaustion_scenario :
    runPool (pool_init 16 5) 3
      = (⟨16, 5, 3, [16, 0]⟩, [some 64, some 48, some 32])
    ∧ pool_free ⟨16, 5, 3, [16, 0]⟩ 48 = ⟨16, 5, 2, [48, 16, 0]⟩
    ∧ pool_available ⟨16, 5, 2, [48, 16, 0]⟩ = 3
    ∧ runPool ⟨16, 5, 2, [48, 16, 0]⟩ 4
      = (⟨16, 5, 5, []⟩, [some 48, some 16, some 0, none])
    ∧ pool_available ⟨16, 5, 5, []⟩ = 0 := by
  decide

/-- C9: destroying the owned-region bump allocator zeroes `memory`, `size`
and `used` and releases the region exactly when it was non-null; a second
`destroy` leaves the same zeroed state and releases nothing (`free(NULL)`
is a no-op), and a `reset` after destroy also leaves the zeroed state. -/
theorem c9_destroy_twice_safe (s : SimpleMemoryAllocator) :
    simple_memory_allocator_destroy s
      = (simple_memory_allocator_init, s.hasMemory)
    ∧ simple_memory_allocator_destroy (simple_memory_allocator_destroy s).1
      = (simple_memory_allocator_init, false)
    ∧ simple_memory_allocator_reset (simple_memory_allocator_destroy s).1
      = simple_memory_allocator_init :=
  ⟨rfl, rfl, rfl⟩

end MemCheck
namespace MemCheck

theorem foldl_cons_eq_reverse_map (f : Nat → Nat) :
    ∀ (xs : List Nat) (acc : List Nat),
      xs.foldl (fun l i => f i :: l) acc = (xs.map f).reverse ++ acc := by
  intro xs
  induction xs with
  | nil => intro acc; simp
  | cons x xs ih =>
    intro acc
    simp [List.foldl_cons, ih (f x :: acc)]

theorem pool_init_free_list (bs cnt : Nat) :
    (pool_init bs cnt).free_list
      = ((List.range cnt).map
          (fun i => i * (pool_init bs cnt).block_size)).reverse := by
  simp [pool_init, foldl_cons_eq_reverse_map]

theorem pool_init_free_list_length (bs cnt : Nat) :
    (pool_init bs cnt).free_list.length = cnt := by
  rw [pool_init_free_list]; simp

theorem pool_block_size_pos (bs cnt : Nat) :
    0 < (pool_init bs cnt).block_size := by
  simp only [pool_init, POOL_LINK_SIZE]
  split <;> omega

theorem runPool_eq (k : Nat) :
    ∀ (p : PoolAllocator), k ≤ p.free_list.length →
      runPool p k
        = ({ p with used_count := p.used_count + k,
                    free_list := p.free_list.drop k },
           (p.free_list.take k).map some) := by
  induction k with
  | zero => intro p _; simp [runPool]
  | succ k ih =>
    intro p hk
    match h : p.free_list with
    | [] => rw [h] at hk; simp at hk
    | b :: rest =>
      rw [h] at hk
      simp only [List.length_cons, Nat.succ_le_succ_iff] at hk
      simp only [runPool, pool_alloc, h]
      rw [ih ⟨p.block_size, p.block_count, p.used_count + 1, rest⟩ hk]
      simp [h]
      omega

theorem pool_free_list_chain (bs cnt : Nat) :
    List.Chain' (· > ·) (pool_init bs cnt).free_list := by
  rw [pool_init_free_list]
  apply List.Pairwise.chain'
  rw [List.pairwise_reverse]
  apply List.Pairwise.map
  · intro a b hab
    exact (Nat.mul_lt_mul_right (pool_block_size_pos bs cnt)).mpr hab
  · exact List.pairwise_lt_range cnt

end MemCheck

namespace MemCheck

theorem pool_alloc_head (p : PoolAllocator) (b : Nat) (rest : List Nat)
    (h : p.free_list = b :: rest) :
    pool_alloc p
      = some ({ p with free_list := rest,
                       used_count := p.used_count + 1 }, b) := by
  simp [pool_alloc, h]

/-- C10: `pool_init` pushes the slots onto the free-list head front to
back, so the resulting free list holds the slots in descending address
order; the first `pool_alloc` returns the highest slot
`(block_count - 1) * block_size_effective`, and `k` successive
`pool_alloc` calls with no intervening frees return the first `k` entries
of that strictly descending list. -/
theorem c10_pool_init_descending (bs cnt k : Nat) (hcnt : 0 < cnt)
    (hk : k ≤ cnt) :
    (pool_init bs cnt).free_list
      = ((List.range cnt).map
          (fun i => i * (pool_init bs cnt).block_size)).reverse
    ∧ (pool_alloc (pool_init bs cnt)).map (fun r => r.2)
      = some ((cnt - 1) * (pool_init bs cnt).block_size)
    ∧ (runPool (pool_init bs cnt) k).2
      = (((pool_init bs cnt).free_list.take k)).map some
    ∧ List.Chain' (· > ·) (pool_init bs cnt).free_list := by
  refine ⟨pool_init_free_list bs cnt, ?_, ?_, pool_free_list_chain bs cnt⟩
  · cases cnt with
    | zero => omega
    | succ m =>
      have h : (pool_init bs (m + 1)).free_list
          = m * (pool_init bs (m + 1)).block_size
            :: ((List.range m).map
                (fun i => i * (pool_init bs (m + 1)).block_size)).reverse := by
        rw [pool_init_free_list, List.range_succ]
        simp
      rw [pool_alloc_head _ _ _ h]
      simp
  · rw [runPool_eq k _ (by rw [pool_init_free_list_length]; exact hk)]

/-- C10 witness: the statement at block size 16, 5 slots, 3 allocations. -/
theorem c10_pool_init_descending_witness :
    (pool_init 16 5).free_list
      = ((List.range 5).map (fun i => i * (pool_init 16 5).block_size)).reverse
    ∧ (pool_alloc (pool_init 16 5)).map (fun r => r.2)
      = some ((5 - 1) * (pool_init 16 5).block_size)
    ∧ (runPool (pool_init 16 5) 3).2
      = (((pool_init 16 5).free_list.take 3)).map some
    ∧ List.Chain' (· > ·) (pool_init 16 5).free_list :=
  c10_pool_init_descending 16 5 3 (by decide) (by decide)

end MemCheck
namespace MemCheck

end MemCheck
namespace MemCheck

end MemCheck
namespace MemCheck

/-- Sum of the 8-byte-aligned request sizes. -/
def sumAligned (rs : List Nat) : Nat := (rs.map align8).sum

/-- Expected address sequence of a run of bump/stack allocations starting
at cursor `u`: each address is the cursor, each call advances the cursor by
the aligned request size. -/
def addrSeq (u : Nat) : List Nat → List Nat
  | [] => []
  | r :: rs => u :: addrSeq (u + align8 r) rs

theorem sumAligned_cons (r : Nat) (rs : List Nat) :
    sumAligned (r :: rs) = align8 r + sumAligned rs := by
  simp [sumAligned]

theorem runBump_eq (rs : List Nat) :
    ∀ cap u, u + sumAligned rs ≤ cap →
      runBump ⟨cap, u⟩ rs
        = (⟨cap, u + sumAligned rs⟩, (addrSeq u rs).map some) := by
  induction rs with
  | nil => intro cap u h; simp [runBump, sumAligned, addrSeq]
  | cons r rs ih =>
    intro cap u h
    rw [sumAligned_cons] at h
    simp only [runBump, bump_alloc]
    rw [if_neg (by omega)]
    simp only []
    rw [ih cap (u + align8 r) (by omega)]
    simp [addrSeq, sumAligned_cons]
    omega

theorem runStack_eq (rs : List Nat) :
    ∀ cap u, u + sumAligned rs ≤ cap →
      runStack ⟨cap, u⟩ rs
        = (⟨cap, u + sumAligned rs⟩, (addrSeq u rs).map some) := by
  induction rs with
  | nil => intro cap u h; simp [runStack, sumAligned, addrSeq]
  | cons r rs ih =>
    intro cap u h
    rw [sumAligned_cons] at h
    simp only [runStack, stack_alloc]
    rw [if_neg (by omega)]
    simp only []
    rw [ih cap (u + align8 r) (by omega)]
    simp [addrSeq, sumAligned_cons]
    omega

theorem addrSeq_head (u : Nat) (r : Nat) (rs : List Nat) :
    (addrSeq u (r :: rs)).head? = some u := by
  simp [addrSeq]

theorem addrSeq_chain (rs : List Nat) (hpos : ∀ r ∈ rs, 0 < r) :
    ∀ u, List.Chain' (· < ·) (addrSeq u rs) := by
  induction rs with
  | nil => intro u; simp [addrSeq]
  | cons r rs ih =>
    intro u
    have hr : 0 < r := hpos r (by simp)
    have ih2 := ih (fun x hx => hpos x (by simp [hx])) (u + align8 r)
    rw [addrSeq, List.chain'_cons']
    refine ⟨?_, ih2⟩
    intro b hb
    cases rs with
    | nil => simp [addrSeq] at hb
    | cons r2 rs2 =>
      rw [addrSeq_head] at hb
      cases hb
      have := align8_pos r hr
      omega

theorem addrSeq_lt (rs : List Nat) (hpos : ∀ r ∈ rs, 0 < r) :
    ∀ u cap, u + sumAligned rs ≤ cap → ∀ x ∈ addrSeq u rs, x < cap := by
  induction rs with
  | nil => intro u cap h x hx; simp [addrSeq] at hx
  | cons r rs ih =>
    intro u cap h x hx
    rw [sumAligned_cons] at h
    have hr := align8_pos r (hpos r (by simp))
    rw [addrSeq] at hx
    rcases List.mem_cons.mp hx with rfl | hx2
    · omega
    · exact ih (fun y hy => hpos y (by simp [hy])) (u + align8 r) cap
        (by omega) x hx2

theorem addrSeq_aligned (rs : List Nat) :
    ∀ u, u % 8 = 0 → ∀ x ∈ addrSeq u rs, x % 8 = 0 := by
  induction rs with
  | nil => intro u hu x hx; simp [addrSeq] at hx
  | cons r rs ih =>
    intro u hu x hx
    rw [addrSeq] at hx
    rcases List.mem_cons.mp hx with rfl | hx2
    · exact hu
    · refine ih (u + align8 r) ?_ x hx2
      have := align8_mod r
      omega

end MemCheck

namespace MemCheck

theorem addrSeq_getD (rs : List Nat) :
    ∀ u i, i + 1 < rs.length →
      (addrSeq u rs).getD (i + 1) 0
        = (addrSeq u rs).getD i 0 + align8 (rs.getD i 0) := by
  induction rs with
  | nil => intro u i h; simp at h
  | cons r rs ih =>
    intro u i h
    cases i with
    | zero =>
      simp only [List.length_cons] at h
      cases rs with
      | nil => simp at h
      | cons r2 rs2 => simp [addrSeq]
    | succ j =>
      simp only [List.length_cons] at h
      have := ih (u + align8 r) j (by omega)
      simpa [addrSeq] using this

/-- C4, counterexample: on a 16-byte region the request sequence `[0, 0]`
has aligned sizes summing to 0 ≤ 16, yet both returned addresses are
offset 0 — the address sequence is not strictly increasing (and a
zero-size request succeeds rather than being excluded). -/
theorem c4_counterexample_zero_requests :
    sumAligned [0, 0] ≤ 16
    ∧ (runBump (bump_init 16) [0, 0]).2 = [some 0, some 0]
    ∧ ¬ List.Chain' (· < ·) [0, 0] := by
  refine ⟨by decide, by decide, ?_⟩
  simp [List.chain'_cons]

/-- C4, amended: for every sequence of positive requests whose 8-byte
aligned sizes sum to at most the capacity, bump and stack runs succeed and
return exactly the cursor sequence `addrSeq 0 rs` (consecutive gaps are by
construction the aligned request sizes, restated by the `getD` clause);
those addresses are strictly increasing, 8-byte aligned, and lie in
`[0, capacity)`; the final `used`/`top` is the sum of the aligned sizes. -/
theorem c4_bump_stack_address_sequence (cap : Nat) (rs : List Nat)
    (hpos : ∀ r ∈ rs, 0 < r) (hsum : sumAligned rs ≤ cap) :
    runBump (bump_init cap) rs
      = (⟨cap, sumAligned rs⟩, (addrSeq 0 rs).map some)
    ∧ runStack (stack_init cap) rs
      = (⟨cap, sumAligned rs⟩, (addrSeq 0 rs).map some)
    ∧ List.Chain' (· < ·) (addrSeq 0 rs)
    ∧ (∀ x ∈ addrSeq 0 rs, x < cap ∧ x % 8 = 0)
    ∧ (∀ i, i + 1 < rs.length →
        (addrSeq 0 rs).getD (i + 1) 0
          = (addrSeq 0 rs).getD i 0 + align8 (rs.getD i 0)) := by
  refine ⟨?_, ?_, addrSeq_chain rs hpos 0, ?_, addrSeq_getD rs 0⟩
  · simpa using runBump_eq rs cap 0 (by omega)
  · simpa using runStack_eq rs cap 0 (by omega)
  · intro x hx
    exact ⟨addrSeq_lt rs hpos 0 cap (by omega) x hx,
           addrSeq_aligned rs 0 rfl x hx⟩

/-- C4 witness: a 1024-byte region with requests 100 then 256 returns
offsets 0 and 104 and leaves `used = 360`. -/
theorem c4_bump_stack_address_sequence_witness :
    runBump (bump_init 1024) [100, 256]
      = (⟨1024, sumAligned [100, 256]⟩, (addrSeq 0 [100, 256]).map some)
    ∧ runStack (stack_init 1024) [100, 256]
      = (⟨1024, sumAligned [100, 256]⟩, (addrSeq 0 [100, 256]).map some)
    ∧ List.Chain' (· < ·) (addrSeq 0 [100, 256])
    ∧ (∀ x ∈ addrSeq 0 [100, 256], x < 1024 ∧ x % 8 = 0)
    ∧ (∀ i, i + 1 < ([100, 256] : List Nat).length →
        (addrSeq 0 [100, 256]).getD (i + 1) 0
          = (addrSeq 0 [100, 256]).getD i 0
            + align8 (([100, 256] : List Nat).getD i 0)) :=
  c4_bump_stack_address_sequence 1024 [100, 256] (by decide) (by decide)

end MemCheck
namespace MemCheck

theorem freelist_required_eq_max (n : Nat) :
    freelist_required n
      = max (align8 (n + FREELIST_HEADER_SIZE)) FREELIST_MIN_BLOCK := by
  simp only [freelist_required]
  split <;> omega

theorem freelist_required_ge (n : Nat) :
    FREELIST_MIN_BLOCK ≤ freelist_required n := by
  simp only [freelist_required]
  split <;> omega

theorem flSearch_eq_none (r : Nat) :
    ∀ l : List Block, flSearch r l = none ↔ ∀ b ∈ l, b.bsize < r := by
  intro l
  induction l with
  | nil => simp [flSearch]
  | cons b rest ih =>
    simp only [flSearch]
    by_cases hb : r ≤ b.bsize
    · rw [if_pos hb]
      constructor
      · intro h; split at h <;> cases h
      · intro h
        have := h b (by simp)
        omega
    · rw [if_neg hb]
      cases h2 : flSearch r rest with
      | none =>
        simp only [h2]
        constructor
        · intro _ x hx
          rcases List.mem_cons.mp hx with rfl | hx2
          · omega
          · exact (ih.mp h2) x hx2
        · intro _; trivial
      | some v =>
        simp only [h2]
        constructor
        · intro h; cases h
        · intro h
          have := ih.mpr (fun x hx => h x (by simp [hx]))
          rw [h2] at this; cases this

theorem flSearch_split (r : Nat) (b : Block) (l2 : List Block) :
    ∀ l1 : List Block, (∀ x ∈ l1, x.bsize < r) → r ≤ b.bsize →
      r + FREELIST_MIN_BLOCK ≤ b.bsize →
      flSearch r (l1 ++ b :: l2)
        = some (l1 ++ ⟨b.addr + r, b.bsize - r⟩ :: l2, ⟨b.addr, r⟩) := by
  intro l1
  induction l1 with
  | nil =>
    intro _ hb hs
    simp only [List.nil_append, flSearch, if_pos hb, if_pos hs]
  | cons x l1 ih =>
    intro hsmall hb hs
    have hx : x.bsize < r := hsmall x (by simp)
    simp only [List.cons_append, flSearch, List.append_eq,
      if_neg (by omega : ¬ r ≤ x.bsize)]
    rw [ih (fun y hy => hsmall y (by simp [hy])) hb hs]

theorem flSearch_whole (r : Nat) (b : Block) (l2 : List Block) :
    ∀ l1 : List Block, (∀ x ∈ l1, x.bsize < r) → r ≤ b.bsize →
      b.bsize < r + FREELIST_MIN_BLOCK →
      flSearch r (l1 ++ b :: l2) = some (l1 ++ l2, b) := by
  intro l1
  induction l1 with
  | nil =>
    intro _ hb hs
    simp only [List.nil_append, flSearch, if_pos hb,
      if_neg (by omega : ¬ r + FREELIST_MIN_BLOCK ≤ b.bsize)]
  | cons x l1 ih =>
    intro hsmall hb hs
    have hx : x.bsize < r := hsmall x (by simp)
    simp only [List.cons_append, flSearch, List.append_eq,
      if_neg (by omega : ¬ r ≤ x.bsize)]
    rw [ih (fun y hy => hsmall y (by simp [hy])) hb hs]

theorem flSearch_some (r : Nat) :
    ∀ (l l' : List Block) (blk : Block), flSearch r l = some (l', blk) →
      ∃ l1 b l2, l = l1 ++ b :: l2 ∧ (∀ x ∈ l1, x.bsize < r) ∧ r ≤ b.bsize ∧
        ((r + FREELIST_MIN_BLOCK ≤ b.bsize
            ∧ l' = l1 ++ ⟨b.addr + r, b.bsize - r⟩ :: l2 ∧ blk = ⟨b.addr, r⟩)
         ∨ (b.bsize < r + FREELIST_MIN_BLOCK ∧ l' = l1 ++ l2 ∧ blk = b)) := by
  intro l
  induction l with
  | nil => intro l' blk h; cases h
  | cons b rest ih =>
    intro l' blk h
    simp only [flSearch] at h
    by_cases hb : r ≤ b.bsize
    · rw [if_pos hb] at h
      by_cases hs : r + FREELIST_MIN_BLOCK ≤ b.bsize
      · rw [if_pos hs] at h
        cases h
        exact ⟨[], b, rest, by simp, by simp, hb, Or.inl ⟨hs, rfl, rfl⟩⟩
      · rw [if_neg hs] at h
        cases h
        exact ⟨[], b, rest, by simp, by simp, hb, Or.inr ⟨by omega, rfl, rfl⟩⟩
    · rw [if_neg hb] at h
      cases h2 : flSearch r rest with
      | none => rw [h2] at h; cases h
      | some v =>
        rw [h2] at h
        cases h
        obtain ⟨l1, b2, l2, hrest, hsmall, hb2, hcase⟩ := ih v.1 v.2 (by rw [h2])
        refine ⟨b :: l1, b2, l2, by simp [hrest], ?_, hb2, ?_⟩
        · intro x hx
          rcases List.mem_cons.mp hx with rfl | hx2
          · omega
          · exact hsmall x hx2
        · rcases hcase with ⟨h1, h2', h3⟩ | ⟨h1, h2', h3⟩
          · exact Or.inl ⟨h1, by simp [h2'], h3⟩
          · exact Or.inr ⟨h1, by simp [h2'], h3⟩

end MemCheck
namespace MemCheck

/-- Functional characterization of the exact-arithmetic model
`freelist_alloc` for `n > 0` (valid for the C code on every request whose
intermediate `size_t` computations do not wrap, by
`freelist_required_w_eq` and `flSearch_w_eq`): `required` is
`align8(n + header_size)` raised to at least the minimum block size;
allocation fails (NULL) exactly when no free block has `size ≥ required`;
on the first block `b` (first-fit, all earlier blocks too small) with
`required ≤ b.bsize`, the block is split — truncated to `required` with
the remainder, shifted by `required`, re-inserted at the same list
position — exactly when it can leave a remainder of at least the minimum
block size, otherwise the entire block is removed and allocated; the
returned pointer is `block_address + FREELIST_HEADER_SIZE` and `used`
grows by the final header size of the returned block. -/
theorem freelist_alloc_first_fit_exact (a : FreeListAllocator) (n : Nat)
    (hn : 0 < n) :
    freelist_required n
      = max (align8 (n + FREELIST_HEADER_SIZE)) FREELIST_MIN_BLOCK
    ∧ (freelist_alloc a n = none
        ↔ ∀ b ∈ a.freeList, b.bsize < freelist_required n)
    ∧ (∀ l1 b l2, a.freeList = l1 ++ b :: l2 →
        (∀ x ∈ l1, x.bsize < freelist_required n) →
        freelist_required n ≤ b.bsize →
        (freelist_required n + FREELIST_MIN_BLOCK ≤ b.bsize →
          freelist_alloc a n
            = some ({ a with
                freeList := l1 ++
                  ⟨b.addr + freelist_required n,
                   b.bsize - freelist_required n⟩ :: l2,
                used := a.used + freelist_required n },
              ⟨b.addr, freelist_required n⟩))
        ∧ (b.bsize < freelist_required n + FREELIST_MIN_BLOCK →
          freelist_alloc a n
            = some ({ a with freeList := l1 ++ l2,
                             used := a.used + b.bsize }, b)))
    ∧ (∀ a2 blk, freelist_alloc a n = some (a2, blk) →
        freelist_ptr blk = blk.addr + FREELIST_HEADER_SIZE
        ∧ a2.used = a.used + blk.bsize) := by
  have hn0 : ¬ n = 0 := by omega
  refine ⟨freelist_required_eq_max n, ?_, ?_, ?_⟩
  · simp only [freelist_alloc, if_neg hn0]
    cases h : flSearch (freelist_required n) a.freeList with
    | none =>
      simp only [h]
      exact ⟨fun _ => (flSearch_eq_none _ _).mp h, fun _ => trivial⟩
    | some v =>
      simp only [h]
      constructor
      · intro hc; cases hc
      · intro hall
        have := (flSearch_eq_none (freelist_required n) a.freeList).mpr hall
        rw [h] at this; cases this
  · intro l1 b l2 hfl hsmall hb
    constructor
    · intro hsplit
      simp only [freelist_alloc, if_neg hn0, hfl,
        flSearch_split _ b l2 l1 hsmall hb hsplit]
    · intro hwhole
      simp only [freelist_alloc, if_neg hn0, hfl,
        flSearch_whole _ b l2 l1 hsmall hb (by omega)]
  · intro a2 blk h
    simp only [freelist_alloc, if_neg hn0] at h
    cases h2 : flSearch (freelist_required n) a.freeList with
    | none => rw [h2] at h; cases h
    | some v =>
      rw [h2] at h
      cases h
      exact ⟨rfl, rfl⟩

/-- Instance of the first-fit characterization: a fresh 1024-byte region,
request 100: `required = 112`, the single free block `[0, 1024)` is split
and the allocation returns block offset 0 (pointer 8) with 112 stored in
the header. -/
theorem freelist_alloc_first_fit_exact_inst :
    (freelist_required 100 + FREELIST_MIN_BLOCK ≤ 1024 →
      freelist_alloc (freelist_init 1024) 100
        = some (⟨1024, [⟨112, 912⟩], 112⟩, ⟨0, 112⟩))
    ∧ (1024 < freelist_required 100 + FREELIST_MIN_BLOCK →
      freelist_alloc (freelist_init 1024) 100
        = some (⟨1024, [], 1024⟩, ⟨0, 1024⟩)) :=
  (freelist_alloc_first_fit_exact (freelist_init 1024) 100 (by decide)).2.2.1
    [] ⟨0, 1024⟩ [] rfl (by simp) (by decide)

/-- The wrapped and exact `required` computations agree whenever
`n + FREELIST_HEADER_SIZE + 7` stays below `2 ^ w`. -/
theorem freelist_required_w_eq (w n : Nat)
    (h : n + FREELIST_HEADER_SIZE + 7 < 2 ^ w) :
    freelist_required_w w n = freelist_required n := by
  simp only [FREELIST_HEADER_SIZE] at h
  simp only [freelist_required_w, freelist_required, align8,
    FREELIST_HEADER_SIZE]
  have h1 : (n + 8) % 2 ^ w = n + 8 := Nat.mod_eq_of_lt (by omega)
  rw [h1]
  have h2 : (n + 8 + 7) % 2 ^ w = n + 8 + 7 := Nat.mod_eq_of_lt (by omega)
  rw [h2]
  have h3 : n + 8 + 7 - (n + 8 + 7) % 8 = (n + 8 + 7) / 8 * 8 := by omega
  rw [h3]

/-- The wrapped and exact first-fit scans agree whenever the split
threshold `required + FREELIST_MIN_BLOCK` stays below `2 ^ w`. -/
theorem flSearch_w_eq (w required : Nat)
    (h : required + FREELIST_MIN_BLOCK < 2 ^ w) :
    ∀ l : List Block, flSearch_w w required l = flSearch required l := by
  intro l
  induction l with
  | nil => rfl
  | cons b rest ih =>
    simp only [flSearch_w, flSearch, Nat.mod_eq_of_lt h, ih]

set_option maxRecDepth 10000 in
/-- C2: the claim fails on the code because the `required` computation is
done in `size_t` and wraps: with 64-bit `size_t`, a request of `2^64 - 8`
bytes on a fresh 1024-byte region makes `size + FREELIST_HEADER_SIZE`
overflow to 0, so the code computes `required = FREELIST_MIN_BLOCK = 16`
and the allocation falsely succeeds, splitting off a 16-byte block —
although no free block has size at least the exact
`align8(n + FREELIST_HEADER_SIZE) = 2^64`, where the claim demands
failure.  On non-wrapping requests (e.g. `n = 100`) the wrapped model
agrees with the exact one. -/
theorem c2_freelist_required_overflow_bug :
    freelist_required_w 64 (2 ^ 64 - 8) = FREELIST_MIN_BLOCK
    ∧ freelist_alloc_w 64 (freelist_init 1024) (2 ^ 64 - 8)
      = some (⟨1024, [⟨16, 1008⟩], 16⟩, ⟨0, 16⟩)
    ∧ (∀ b ∈ (freelist_init 1024).freeList,
        b.bsize < align8 (2 ^ 64 - 8 + FREELIST_HEADER_SIZE))
    ∧ freelist_alloc_w 64 (freelist_init 1024) 100
      = freelist_alloc (freelist_init 1024) 100 := by
  refine ⟨by decide, by decide, ?_, by decide⟩
  intro b hb
  simp only [freelist_init, List.mem_singleton] at hb
  subst hb
  norm_num [align8, FREELIST_HEADER_SIZE]

end MemCheck
namespace MemCheck

/-! ### The free-list tiling invariant (C1)

`Tiles cap bs` states that the byte ranges of the blocks `bs` exactly
cover `[0, cap)` with no gaps and no overlaps: every block lies inside the
region and every byte of the region is covered by exactly one block. -/

/-- Contribution of one block to the coverage of byte `i`: 1 when
`i ∈ [addr, addr + bsize)`, else 0. -/
def coverB (b : Block) (i : Nat) : Nat :=
  if b.addr ≤ i ∧ i < b.addr + b.bsize then 1 else 0

/-- Number of blocks of `bs` (with multiplicity) covering byte `i`. -/
def covers (bs : List Block) (i : Nat) : Nat :=
  (bs.map (fun b => coverB b i)).sum

/-- The blocks `bs` exactly tile `[0, cap)`. -/
def Tiles (cap : Nat) (bs : List Block) : Prop :=
  (∀ b ∈ bs, b.addr + b.bsize ≤ cap) ∧ ∀ i, i < cap → covers bs i = 1

/-- Order relation kept by the free list: strictly ascending addresses
with a nonempty gap between consecutive blocks (sorted, disjoint and
not address-adjacent). -/
def Rfree (b c : Block) : Prop := b.addr + b.bsize < c.addr

/-- The free list is address-sorted and no two consecutive free blocks
are address-adjacent (coalescing left nothing to merge). -/
def FreeOrd (l : List Block) : Prop := List.Chain' Rfree l

/-- States reachable by the caller contract: start from `freelist_init`,
allocate any sizes (successfully), free only currently-live blocks.  The
second component is the ghost list of live allocations. -/
inductive FLReach : FreeListAllocator → List Block → Prop
  | init (size : Nat) : FLReach (freelist_init size) []
  | alloc {a : FreeListAllocator} {live : List Block} {n : Nat}
      {a2 : FreeListAllocator} {blk : Block} :
      FLReach a live → freelist_alloc a n = some (a2, blk) →
      FLReach a2 (blk :: live)
  | free {a : FreeListAllocator} {live : List Block} {blk : Block} :
      FLReach a live → blk ∈ live →
      FLReach (freelist_free a blk) (live.erase blk)

/-- Inductive invariant: either the allocator tiles its region, keeps the
free list in strict address order with gaps, and all blocks have positive
size, or it is the degenerate zero-capacity initial state. -/
def FLGood (a : FreeListAllocator) (live : List Block) : Prop :=
  (Tiles a.size (a.freeList ++ live)
   ∧ FreeOrd a.freeList
   ∧ (∀ b ∈ a.freeList, 0 < b.bsize)
   ∧ (∀ b ∈ live, 0 < b.bsize))
  ∨ (a.size = 0 ∧ a.freeList = [⟨0, 0⟩] ∧ live = [])

theorem covers_nil (i : Nat) : covers [] i = 0 := rfl

theorem covers_cons (b : Block) (l : List Block) (i : Nat) :
    covers (b :: l) i = coverB b i + covers l i := by
  simp [covers]

theorem covers_append (l1 l2 : List Block) (i : Nat) :
    covers (l1 ++ l2) i = covers l1 i + covers l2 i := by
  simp [covers]

theorem covers_perm {l1 l2 : List Block} (h : l1.Perm l2) (i : Nat) :
    covers l1 i = covers l2 i :=
  List.Perm.sum_eq (List.Perm.map _ h)

theorem coverB_le_covers {b : Block} {l : List Block} (hb : b ∈ l)
    (i : Nat) : coverB b i ≤ covers l i := by
  induction l with
  | nil => cases hb
  | cons x l ih =>
    rw [covers_cons]
    rcases List.mem_cons.mp hb with rfl | h2
    · omega
    · have := ih h2; omega

/-- Coverage of a block equals the coverage of its two halves; used both
for the alloc split and (in reverse) for the free-time coalescing. -/
theorem coverB_split (ad sz r i : Nat) (h : r ≤ sz) :
    coverB ⟨ad, sz⟩ i = coverB ⟨ad, r⟩ i + coverB ⟨ad + r, sz - r⟩ i := by
  simp only [coverB]
  split_ifs <;> omega

/-- Coverage of two address-adjacent blocks equals that of their merge. -/
theorem coverB_merge (u v : Block) (h : v.addr = u.addr + u.bsize)
    (i : Nat) :
    coverB ⟨u.addr, u.bsize + v.bsize⟩ i = coverB u i + coverB v i := by
  simp only [coverB]
  split_ifs <;> omega

theorem coverB_self (b : Block) (h : 0 < b.bsize) : coverB b b.addr = 1 := by
  simp only [coverB]
  rw [if_pos ⟨le_refl _, by omega⟩]

/-- Two blocks drawn from the two parts of a tiling list cannot overlap:
if the first starts no later than byte `i` of the region and still covers
it, the second cannot also cover `i`. -/
theorem tiles_no_overlap {cap : Nat} {F V : List Block}
    (ht : Tiles cap (F ++ V)) {x y : Block} (hx : x ∈ F) (hy : y ∈ V)
    {i : Nat} (hix : coverB x i = 1) (hiy : coverB y i = 1) : False := by
  obtain ⟨hbound, hcov⟩ := ht
  have hicap : i < cap := by
    have hb := hbound x (by simp [hx])
    have hin : x.addr ≤ i ∧ i < x.addr + x.bsize := by
      by_contra hc
      simp only [coverB, if_neg hc] at hix
      omega
    omega
  have h1 : 1 ≤ covers F i := hix ▸ coverB_le_covers hx i
  have h2 : 1 ≤ covers V i := hiy ▸ coverB_le_covers hy i
  have := hcov i hicap
  rw [covers_append] at this
  omega

/-- A free block left of a live block ends at or before the live block. -/
theorem tiles_sep_left {cap : Nat} {F V : List Block}
    (ht : Tiles cap (F ++ V)) {blk : Block} (hblk : blk ∈ V)
    (hpos : 0 < blk.bsize) {x : Block} (hx : x ∈ F)
    (hlt : x.addr < blk.addr) : x.addr + x.bsize ≤ blk.addr := by
  by_contra hcon
  refine tiles_no_overlap ht hx hblk (i := blk.addr) ?_ ?_
  · simp only [coverB]
    rw [if_pos ⟨by omega, by omega⟩]
  · exact coverB_self blk hpos

/-- A free block not left of a live block starts at or after its end. -/
theorem tiles_sep_right {cap : Nat} {F V : List Block}
    (ht : Tiles cap (F ++ V)) {blk : Block} (hblk : blk ∈ V)
    {y : Block} (hy : y ∈ F) (hypos : 0 < y.bsize)
    (hge : ¬ y.addr < blk.addr) : blk.addr + blk.bsize ≤ y.addr := by
  by_contra hcon
  refine tiles_no_overlap ht hy hblk (i := y.addr) ?_ ?_
  · exact coverB_self y hypos
  · simp only [coverB]
    rw [if_pos ⟨by omega, by omega⟩]

end MemCheck
namespace MemCheck

theorem freeOrd_lt_of_mem {l : List Block} :
    ∀ {c : Block}, List.Chain' Rfree (c :: l) → ∀ x ∈ l, c.addr < x.addr := by
  induction l with
  | nil => intro c _ x hx; cases hx
  | cons c2 l ih =>
    intro c hch x hx
    rw [List.chain'_cons] at hch
    have hr : c.addr + c.bsize < c2.addr := hch.1
    rcases List.mem_cons.mp hx with rfl | hx2
    · omega
    · have := ih hch.2 x hx2
      omega

theorem insertSorted_split (b : Block) :
    ∀ l : List Block, ∃ l1 l2, l = l1 ++ l2
      ∧ insertSorted b l = l1 ++ b :: l2
      ∧ (∀ x ∈ l1, x.addr < b.addr)
      ∧ (∀ c, l2.head? = some c → ¬ c.addr < b.addr) := by
  intro l
  induction l with
  | nil => exact ⟨[], [], rfl, rfl, by simp, by simp⟩
  | cons c rest ih =>
    by_cases hc : c.addr < b.addr
    · obtain ⟨l1, l2, he, hi, hlt, hhd⟩ := ih
      refine ⟨c :: l1, l2, by simp [he], ?_, ?_, hhd⟩
      · simp only [insertSorted, if_pos hc, List.cons_append, hi]
      · intro x hx
        rcases List.mem_cons.mp hx with rfl | hx2
        · exact hc
        · exact hlt x hx2
    · refine ⟨[], c :: rest, rfl, ?_, by simp, ?_⟩
      · simp only [insertSorted, if_neg hc, List.nil_append]
      · intro d hd
        rw [List.head?_cons, Option.some_inj] at hd
        subst hd
        exact hc

theorem coalesceNext_skip (t : Nat) (x : Block) (l : List Block)
    (hx : ¬ x.addr = t) :
    coalesceNext t (x :: l) = x :: coalesceNext t l := by
  cases l with
  | nil => rfl
  | cons y l => simp [coalesceNext, hx]

theorem coalesceNext_skip_all (t : Nat) (rest : List Block) :
    ∀ l1 : List Block, (∀ x ∈ l1, ¬ x.addr = t) →
      coalesceNext t (l1 ++ rest) = l1 ++ coalesceNext t rest := by
  intro l1
  induction l1 with
  | nil => intro _; rfl
  | cons x l1 ih =>
    intro h
    rw [List.cons_append, coalesceNext_skip t x _ (h x (by simp)),
      ih (fun y hy => h y (by simp [hy]))]
    rfl

theorem coalescePrev_skip (t : Nat) (p b : Block) (l : List Block)
    (hb : ¬ b.addr = t) :
    coalescePrev t (p :: b :: l) = p :: coalescePrev t (b :: l) := by
  simp [coalescePrev, hb]

theorem coalescePrev_no_target (t : Nat) :
    ∀ l : List Block, (∀ x ∈ l.tail, ¬ x.addr = t) →
      coalescePrev t l = l := by
  intro l
  induction l with
  | nil => intro _; rfl
  | cons p l ih =>
    intro h
    cases l with
    | nil => rfl
    | cons b rest =>
      rw [coalescePrev_skip t p b rest (h b (by simp)),
        ih (fun y hy => h y (List.mem_cons_of_mem b hy))]

theorem coalescePrev_concat (t : Nat) (B : Block) (l2 : List Block)
    (hB : B.addr = t) :
    ∀ (l1 : List Block) (p : Block), (∀ x ∈ l1, ¬ x.addr = t) →
      ¬ p.addr = t →
      coalescePrev t (l1 ++ p :: B :: l2)
        = l1 ++ (if p.addr + p.bsize = B.addr
                 then (⟨p.addr, p.bsize + B.bsize⟩ :: l2)
                 else p :: B :: l2) := by
  intro l1
  induction l1 with
  | nil =>
    intro p _ _
    simp only [List.nil_append, coalescePrev, if_pos hB]
  | cons x l1 ih =>
    intro p h hp
    have hx : ¬ x.addr = t := h x (by simp)
    have hsecond : ∀ y rest, l1 ++ p :: B :: l2 = y :: rest → ¬ y.addr = t := by
      intro y rest heq
      cases l1 with
      | nil =>
        simp only [List.nil_append, List.cons.injEq] at heq
        exact heq.1 ▸ hp
      | cons z l1' =>
        simp only [List.cons_append, List.cons.injEq] at heq
        rw [← heq.1]
        exact h z (by simp)
    cases hl : l1 ++ p :: B :: l2 with
    | nil => simp at hl
    | cons y rest =>
      rw [List.cons_append, hl, coalescePrev_skip t x y rest (hsecond y rest hl),
        ← hl, ih p (fun z hz => h z (by simp [hz])) hp]
      rfl

end MemCheck
namespace MemCheck

theorem flgood_init (size : Nat) : FLGood (freelist_init size) [] := by
  cases Nat.eq_zero_or_pos size with
  | inl h => exact Or.inr ⟨h, by simp [freelist_init, h], rfl⟩
  | inr h =>
    refine Or.inl ⟨⟨?_, ?_⟩, ?_, ?_, ?_⟩
    · intro b hb
      simp only [freelist_init, List.append_nil, List.mem_singleton] at hb
      subst hb
      simp [freelist_init]
    · intro i hi
      simp only [freelist_init] at hi
      simp only [freelist_init, List.append_nil, covers_cons, covers_nil,
        coverB]
      rw [if_pos ⟨Nat.zero_le i, by omega⟩]
    · simp [freelist_init, FreeOrd]
    · intro b hb
      simp only [freelist_init, List.mem_singleton] at hb
      subst hb
      exact h
    · intro b hb
      cases hb

theorem flgood_alloc {a : FreeListAllocator} {live : List Block} {n : Nat}
    {a2 : FreeListAllocator} {blk : Block}
    (hg : FLGood a live) (h : freelist_alloc a n = some (a2, blk)) :
    FLGood a2 (blk :: live) := by
  have hmin : FREELIST_MIN_BLOCK = 16 := rfl
  simp only [freelist_alloc] at h
  by_cases hn : n = 0
  · rw [if_pos hn] at h; cases h
  rw [if_neg hn] at h
  have hr16 : FREELIST_MIN_BLOCK ≤ freelist_required n :=
    freelist_required_ge n
  cases hfs : flSearch (freelist_required n) a.freeList with
  | none => rw [hfs] at h; cases h
  | some v =>
    obtain ⟨l', blkv⟩ := v
    rw [hfs] at h
    simp only [Option.some.injEq, Prod.mk.injEq] at h
    obtain ⟨rfl, rfl⟩ := h
    rcases hg with ⟨ht, hord, hposF, hposL⟩ | ⟨hsz, hfl, hlv⟩
    · obtain ⟨l1, b, l2, hfl, hsmall, hb, hcase⟩ :=
        flSearch_some (freelist_required n) a.freeList l' blkv hfs
      obtain ⟨ad, sz⟩ := b
      simp only at hb hcase
      have hmemb : (⟨ad, sz⟩ : Block) ∈ a.freeList := by
        rw [hfl]; exact List.mem_append_right l1 (by simp)
      have hboundb : ad + sz ≤ a.size :=
        ht.1 _ (List.mem_append_left live hmemb)
      have hordfl : List.Chain' Rfree (l1 ++ (⟨ad, sz⟩ : Block) :: l2) :=
        hfl ▸ hord
      rw [List.chain'_append] at hordfl
      obtain ⟨hch1, hchb, hbdry⟩ := hordfl
      rw [List.chain'_cons'] at hchb
      obtain ⟨hhead, hch2⟩ := hchb
      rcases hcase with ⟨hs, hl', hblk⟩ | ⟨hs, hl', hblk⟩
      · -- split: the selected block is truncated, remainder re-inserted
        subst hl' hblk
        refine Or.inl ⟨⟨?_, ?_⟩, ?_, ?_, ?_⟩
        · intro x hx
          simp only [List.mem_append, List.mem_cons] at hx
          rcases hx with (hx1 | rfl | hx2) | rfl | hxl
          · exact ht.1 x (by rw [hfl]; simp [hx1])
          · simp only
            omega
          · exact ht.1 x (by rw [hfl]; simp [hx2])
          · simp only
            omega
          · exact ht.1 x (by simp [hxl])
        · intro i hi
          have hold := ht.2 i hi
          rw [hfl] at hold
          rw [covers_append, covers_append, covers_cons] at hold
          rw [covers_append, covers_append, covers_cons, covers_cons]
          have hspl := coverB_split ad sz (freelist_required n) i (by omega)
          omega
        · have hrem : ∀ y ∈ l2.head?,
              Rfree ⟨ad + freelist_required n, sz - freelist_required n⟩ y := by
            intro y hy
            have := hhead y hy
            simp only [Rfree] at this ⊢
            omega
          have hbdry2 : ∀ x ∈ l1.getLast?,
              ∀ y ∈ (List.head? ((⟨ad + freelist_required n,
                  sz - freelist_required n⟩ : Block) :: l2)), Rfree x y := by
            intro x hx y hy
            have := hbdry x hx ⟨ad, sz⟩ (by simp)
            simp only [List.head?_cons, Option.mem_some_iff] at hy
            subst hy
            simp only [Rfree] at this ⊢
            omega
          exact List.chain'_append.mpr
            ⟨hch1, List.chain'_cons'.mpr ⟨hrem, hch2⟩, hbdry2⟩
        · intro x hx
          simp only [List.mem_append, List.mem_cons] at hx
          rcases hx with hx1 | rfl | hx2
          · exact hposF x (by rw [hfl]; simp [hx1])
          · simp only
            omega
          · exact hposF x (by rw [hfl]; simp [hx2])
        · intro x hx
          rcases List.mem_cons.mp hx with rfl | hxl
          · simp only
            omega
          · exact hposL x hxl
      · -- whole block: removed from the list and allocated as-is
        subst hl' hblk
        refine Or.inl ⟨⟨?_, ?_⟩, ?_, ?_, ?_⟩
        · intro x hx
          simp only [List.mem_append, List.mem_cons] at hx
          rcases hx with (hx1 | hx2) | rfl | hxl
          · exact ht.1 x (by rw [hfl]; simp [hx1])
          · exact ht.1 x (by rw [hfl]; simp [hx2])
          · exact hboundb
          · exact ht.1 x (by simp [hxl])
        · intro i hi
          have hold := ht.2 i hi
          rw [hfl] at hold
          rw [covers_append, covers_append, covers_cons] at hold
          rw [covers_append, covers_append, covers_cons]
          omega
        · have hbdry2 : ∀ x ∈ l1.getLast?, ∀ y ∈ l2.head?, Rfree x y := by
            intro x hx y hy
            have h1 := hbdry x hx ⟨ad, sz⟩ (by simp)
            have h2 := hhead y hy
            simp only [Rfree] at h1 h2 ⊢
            omega
          exact List.chain'_append.mpr ⟨hch1, hch2, hbdry2⟩
        · intro x hx
          simp only [List.mem_append] at hx
          rcases hx with hx1 | hx2
          · exact hposF x (by rw [hfl]; simp [hx1])
          · exact hposF x (by rw [hfl]; simp [hx2])
        · intro x hx
          rcases List.mem_cons.mp hx with rfl | hxl
          · exact hposF _ hmemb
          · exact hposL x hxl
    · -- degenerate zero-capacity state: allocation can never succeed
      rw [hfl] at hfs
      have : ¬ freelist_required n ≤ (0 : Nat) := by omega
      simp only [flSearch, Block.bsize] at hfs
      rw [if_neg this] at hfs
      cases hfs

end MemCheck
namespace MemCheck

/-- Case analysis for the backward-coalescing pass of `freelist_free`: the
target block either sits at the head of the list (nothing to merge) or has
a predecessor `p`, merged with it exactly when address-adjacent. -/
theorem coalescePrev_cases (t : Nat) (B1 : Block) (hB1 : B1.addr = t)
    (L2 : List Block) (hL2 : ∀ x ∈ L2, ¬ x.addr = t) (l1 : List Block)
    (hl1 : ∀ x ∈ l1, ¬ x.addr = t) :
    (l1 = [] ∧ coalescePrev t (l1 ++ B1 :: L2) = B1 :: L2)
    ∨ (∃ l1' p, l1 = l1' ++ [p] ∧
        ((p.addr + p.bsize = t ∧
          coalescePrev t (l1 ++ B1 :: L2)
            = l1' ++ ⟨p.addr, p.bsize + B1.bsize⟩ :: L2)
         ∨ (¬ p.addr + p.bsize = t ∧
          coalescePrev t (l1 ++ B1 :: L2) = l1 ++ B1 :: L2))) := by
  rcases List.eq_nil_or_concat l1 with rfl | ⟨l1', p, hl1eq⟩
  · left
    refine ⟨rfl, ?_⟩
    rw [List.nil_append]
    exact coalescePrev_no_target t _ (by
      intro x hx
      exact hL2 x (by simpa using hx))
  · rw [List.concat_eq_append] at hl1eq
    subst hl1eq
    right
    refine ⟨l1', p, rfl, ?_⟩
    have hp : ¬ p.addr = t := hl1 p (by simp)
    have hl1' : ∀ x ∈ l1', ¬ x.addr = t := fun x hx => hl1 x (by simp [hx])
    have hcp := coalescePrev_concat t B1 L2 hB1 l1' p hl1' hp
    rw [List.append_assoc, List.singleton_append]
    by_cases hadj : p.addr + p.bsize = t
    · left
      refine ⟨hadj, ?_⟩
      rw [hcp, if_pos (by rw [hB1]; exact hadj)]
    · right
      refine ⟨hadj, ?_⟩
      rw [hcp, if_neg (by rw [hB1]; exact hadj)]

end MemCheck
namespace MemCheck

theorem flgood_free {a : FreeListAllocator} {live : List Block} {blk : Block}
    (hg : FLGood a live) (hmem : blk ∈ live) :
    FLGood (freelist_free a blk) (live.erase blk) := by
  rcases hg with ⟨ht, hord, hposF, hposL⟩ | ⟨hsz, hfl, hlv⟩
  case inr =>
    subst hlv
    cases hmem
  have hposblk : 0 < blk.bsize := hposL blk hmem
  have hperm : live.Perm (blk :: live.erase blk) := List.perm_cons_erase hmem
  obtain ⟨l1, l2, hfl12, hins, hlt1, hhd2⟩ := insertSorted_split blk a.freeList
  have hord12 : List.Chain' Rfree (l1 ++ l2) := hfl12 ▸ hord
  rw [List.chain'_append] at hord12
  obtain ⟨hch1, hch2, hbdry⟩ := hord12
  have hmem1 : ∀ x ∈ l1, x ∈ a.freeList := by
    intro x hx; rw [hfl12]; exact List.mem_append_left _ hx
  have hmem2 : ∀ x ∈ l2, x ∈ a.freeList := by
    intro x hx; rw [hfl12]; exact List.mem_append_right _ hx
  have hl1end : ∀ x ∈ l1, x.addr + x.bsize ≤ blk.addr := by
    intro x hx
    exact tiles_sep_left ht hmem hposblk (hmem1 x hx) (hlt1 x hx)
  have hl2start : ∀ c, l2.head? = some c → blk.addr + blk.bsize ≤ c.addr := by
    intro c hc
    have hcl2 : c ∈ l2 := by
      cases l2 with
      | nil => cases hc
      | cons d l2' =>
        rw [List.head?_cons, Option.some_inj] at hc
        subst hc
        exact List.mem_cons_self _ _
    exact tiles_sep_right ht hmem (hmem2 c hcl2) (hposF c (hmem2 c hcl2))
      (hhd2 c hc)
  have hne1 : ∀ x ∈ l1, ¬ x.addr = blk.addr := by
    intro x hx
    have := hlt1 x hx
    omega
  have hbound1 : ∀ x ∈ l1, x.addr + x.bsize ≤ a.size := fun x hx =>
    ht.1 x (List.mem_append_left _ (hmem1 x hx))
  have hpos1 : ∀ x ∈ l1, 0 < x.bsize := fun x hx => hposF x (hmem1 x hx)
  have hboundE : ∀ x ∈ live.erase blk, x.addr + x.bsize ≤ a.size := by
    intro x hx
    exact ht.1 x (List.mem_append_right _ (List.mem_of_mem_erase hx))
  have hposE : ∀ x ∈ live.erase blk, 0 < x.bsize := fun x hx =>
    hposL x (List.mem_of_mem_erase hx)
  have hcovOld : ∀ i, i < a.size →
      covers l1 i + covers l2 i
        + (coverB blk i + covers (live.erase blk) i) = 1 := by
    intro i hi
    have hold := ht.2 i hi
    rw [hfl12, covers_append, covers_append] at hold
    have hl : covers live i = coverB blk i + covers (live.erase blk) i := by
      rw [covers_perm hperm, covers_cons]
    omega
  have hkey : ∀ (B1 : Block) (L2 : List Block),
      B1.addr = blk.addr →
      B1.addr + B1.bsize ≤ a.size →
      0 < B1.bsize →
      (∀ i, coverB B1 i + covers L2 i = coverB blk i + covers l2 i) →
      List.Chain' Rfree L2 →
      (∀ y ∈ L2.head?, B1.addr + B1.bsize < y.addr) →
      (∀ x ∈ L2, x ∈ l2) →
      (∀ x ∈ L2, blk.addr < x.addr) →
      FLGood ⟨a.size, coalescePrev blk.addr (l1 ++ B1 :: L2),
              a.used - blk.bsize⟩ (live.erase blk) := by
    intro B1 L2 hB1a hB1b hB1p hB1c hchL hheadL hsubL haddrL
    have hneL : ∀ x ∈ L2, ¬ x.addr = blk.addr := by
      intro x hx
      have := haddrL x hx
      omega
    have hboundL2 : ∀ x ∈ L2, x.addr + x.bsize ≤ a.size := fun x hx =>
      ht.1 x (List.mem_append_left _ (hmem2 x (hsubL x hx)))
    have hposL2 : ∀ x ∈ L2, 0 < x.bsize := fun x hx =>
      hposF x (hmem2 x (hsubL x hx))
    rcases coalescePrev_cases blk.addr B1 hB1a L2 hneL l1 hne1 with
      ⟨rfl, hcp⟩ | ⟨l1', p, rfl, ⟨hadj, hcp⟩ | ⟨hnadj, hcp⟩⟩
    · -- no predecessor: the freed (and forward-merged) block leads the list
      rw [hcp]
      refine Or.inl ⟨⟨?_, ?_⟩, ?_, ?_, hposE⟩
      · intro x hx
        rcases List.mem_append.mp hx with hbl | hxE
        · rcases List.mem_cons.mp hbl with rfl | hxL
          · exact hB1b
          · exact hboundL2 x hxL
        · exact hboundE x hxE
      · intro i hi
        have hi2 : i < a.size := hi
        have h0 := hcovOld i hi2
        simp only [covers_nil] at h0
        show covers ((B1 :: L2) ++ live.erase blk) i = 1
        simp only [covers_append, covers_cons]
        have hc := hB1c i
        omega
      · exact List.chain'_cons'.mpr ⟨fun y hy => hheadL y hy, hchL⟩
      · intro x hx
        rcases List.mem_cons.mp hx with rfl | hxL
        · exact hB1p
        · exact hposL2 x hxL
    · -- predecessor `p` is address-adjacent: backward merge
      rw [hcp]
      have hpmem : p ∈ l1' ++ [p] := by simp
      have hpend : p.addr + p.bsize ≤ blk.addr := hl1end p hpmem
      have hch1d := hch1
      rw [List.chain'_append] at hch1d
      obtain ⟨hch1a, _, hbdry1⟩ := hch1d
      refine Or.inl ⟨⟨?_, ?_⟩, ?_, ?_, hposE⟩
      · intro x hx
        rcases List.mem_append.mp hx with hf | hxE
        · rcases List.mem_append.mp hf with hx1 | hMl
          · exact hbound1 x (List.mem_append_left _ hx1)
          · rcases List.mem_cons.mp hMl with rfl | hxL
            · simp only
              omega
            · exact hboundL2 x hxL
        · exact hboundE x hxE
      · intro i hi
        have hi2 : i < a.size := hi
        have h0 := hcovOld i hi2
        simp only [covers_append, covers_cons, covers_nil] at h0
        show covers ((l1' ++ (⟨p.addr, p.bsize + B1.bsize⟩ : Block) :: L2)
            ++ live.erase blk) i = 1
        simp only [covers_append, covers_cons]
        have hmerge : coverB ⟨p.addr, p.bsize + B1.bsize⟩ i
            = coverB p i + coverB B1 i :=
          coverB_merge p B1 (by omega) i
        have hc := hB1c i
        omega
      · refine List.chain'_append.mpr ⟨hch1a, ?_, ?_⟩
        · refine List.chain'_cons'.mpr ⟨?_, hchL⟩
          intro y hy
          have := hheadL y hy
          simp only [Rfree] at this ⊢
          omega
        · intro x hx y hy
          simp only [List.head?_cons, Option.mem_some_iff] at hy
          subst hy
          have := hbdry1 x hx p (by simp)
          simp only [Rfree] at this ⊢
          omega
      · intro x hx
        rcases List.mem_append.mp hx with hx1 | hMl
        · exact hpos1 x (List.mem_append_left _ hx1)
        · rcases List.mem_cons.mp hMl with rfl | hxL
          · simp only
            omega
          · exact hposL2 x hxL
    · -- predecessor `p` not adjacent: no backward merge
      rw [hcp]
      have hpmem : p ∈ l1' ++ [p] := by simp
      have hpend : p.addr + p.bsize ≤ blk.addr := hl1end p hpmem
      have hlast : (l1' ++ [p]).getLast? = some p := by simp
      refine Or.inl ⟨⟨?_, ?_⟩, ?_, ?_, hposE⟩
      · intro x hx
        rcases List.mem_append.mp hx with hf | hxE
        · rcases List.mem_append.mp hf with hx1 | hbl
          · exact hbound1 x hx1
          · rcases List.mem_cons.mp hbl with rfl | hxL
            · exact hB1b
            · exact hboundL2 x hxL
        · exact hboundE x hxE
      · intro i hi
        have hi2 : i < a.size := hi
        have h0 := hcovOld i hi2
        simp only [covers_append, covers_cons, covers_nil] at h0
        show covers (((l1' ++ [p]) ++ B1 :: L2) ++ live.erase blk) i = 1
        simp only [covers_append, covers_cons, covers_nil]
        have hc := hB1c i
        omega
      · refine List.chain'_append.mpr ⟨hch1, ?_, ?_⟩
        · exact List.chain'_cons'.mpr ⟨fun y hy => hheadL y hy, hchL⟩
        · intro x hx y hy
          rw [hlast, Option.mem_some_iff] at hx
          subst hx
          simp only [List.head?_cons, Option.mem_some_iff] at hy
          subst hy
          simp only [Rfree]
          omega
      · intro x hx
        rcases List.mem_append.mp hx with hx1 | hbl
        · exact hpos1 x hx1
        · rcases List.mem_cons.mp hbl with rfl | hxL
          · exact hB1p
          · exact hposL2 x hxL
  -- forward-coalescing case analysis, then apply `hkey`
  show FLGood _ _
  simp only [freelist_free, hins]
  rw [coalesceNext_skip_all blk.addr _ l1 hne1]
  cases l2 with
  | nil =>
    have hcn : coalesceNext blk.addr (blk :: ([] : List Block)) = [blk] := rfl
    rw [hcn]
    refine hkey blk [] rfl
      (ht.1 blk (List.mem_append_right _ hmem)) hposblk
      (fun i => rfl) List.chain'_nil (by simp) (by simp) (by simp)
  | cons c l2' =>
    have hcs : blk.addr + blk.bsize ≤ c.addr := hl2start c (by simp)
    have hctail := List.chain'_cons'.mp hch2
    have hcmem : c ∈ c :: l2' := List.mem_cons_self _ _
    by_cases hadj : blk.addr + blk.bsize = c.addr
    · have hcn : coalesceNext blk.addr (blk :: c :: l2')
          = ⟨blk.addr, blk.bsize + c.bsize⟩ :: l2' := by
        simp [coalesceNext, hadj]
      rw [hcn]
      have hcb : c.addr + c.bsize ≤ a.size :=
        ht.1 c (List.mem_append_left _ (hmem2 c hcmem))
      refine hkey ⟨blk.addr, blk.bsize + c.bsize⟩ l2' rfl (by simp only; omega)
        (by simp only; omega) ?_ hctail.2 ?_ ?_ ?_
      · intro i
        have hmg : coverB ⟨blk.addr, blk.bsize + c.bsize⟩ i
            = coverB blk i + coverB c i :=
          coverB_merge blk c (by omega) i
        rw [covers_cons]
        omega
      · intro y hy
        have := hctail.1 y hy
        simp only [Rfree] at this
        simp only
        omega
      · intro x hx
        exact List.mem_cons_of_mem _ hx
      · intro x hx
        have := freeOrd_lt_of_mem hch2 x hx
        omega
    · have hcn : coalesceNext blk.addr (blk :: c :: l2')
          = blk :: c :: l2' := by
        simp [coalesceNext, hadj]
      rw [hcn]
      refine hkey blk (c :: l2') rfl
        (ht.1 blk (List.mem_append_right _ hmem)) hposblk (fun i => rfl)
        hch2 ?_ (fun x hx => hx) ?_
      · intro y hy
        simp only [List.head?_cons, Option.mem_some_iff] at hy
        subst hy
        omega
      · intro x hx
        rcases List.mem_cons.mp hx with rfl | hx2
        · omega
        · have := freeOrd_lt_of_mem hch2 x hx2
          omega

end MemCheck
namespace MemCheck

theorem flgood_reach {a : FreeListAllocator} {live : List Block}
    (h : FLReach a live) : FLGood a live := by
  induction h with
  | init size => exact flgood_init size
  | alloc _ halloc ih => exact flgood_alloc ih halloc
  | free _ hmem ih => exact flgood_free ih hmem

/-- C1: for every state of the free-list allocator reachable under the
caller contract (any sequence of `freelist_init`, successful
`freelist_alloc` and `freelist_free` of live blocks), the free-list block
byte ranges together with the live-allocation byte ranges exactly tile
`[0, capacity)` — every block in bounds and every byte covered exactly
once — and the free list is in strictly ascending address order with no
two address-adjacent free blocks left un-coalesced (in particular after
every `freelist_free` call returns). -/
theorem c1_freelist_tiling_invariant (a : FreeListAllocator)
    (live : List Block) (h : FLReach a live) :
    Tiles a.size (a.freeList ++ live) ∧ FreeOrd a.freeList := by
  rcases flgood_reach h with ⟨ht, hord, _, _⟩ | ⟨hsz, hfl, hlv⟩
  · exact ⟨ht, hord⟩
  · subst hlv
    rw [hfl, hsz]
    refine ⟨⟨?_, ?_⟩, ?_⟩
    · intro b hb
      simp only [List.append_nil, List.mem_singleton] at hb
      subst hb
      simp
    · intro i hi
      omega
    · simp [FreeOrd]

/-- C1 witness: the invariant at the reachable state obtained by
allocating 100 bytes from a fresh 1024-byte region (free block
`[112, 1024)`, live block `[0, 112)`). -/
theorem c1_freelist_tiling_invariant_witness :
    Tiles 1024 ([⟨112, 912⟩] ++ [⟨0, 112⟩])
    ∧ FreeOrd [⟨112, 912⟩] :=
  c1_freelist_tiling_invariant ⟨1024, [⟨112, 912⟩], 112⟩ [⟨0, 112⟩]
    (@FLReach.alloc (freelist_init 1024) [] 100
      ⟨1024, [⟨112, 912⟩], 112⟩ ⟨0, 112⟩ (FLReach.init 1024) rfl)

end MemCheck
